import Mathlib

/-!
# zoetrope/mop, `core/upload.go`: uploading a growing file as issue comments

A shallow embedding of `UploadResult`, `readContent`, `checkFileSize`,
`formatAsCodeBlock`, `removeANSIEscapeSequences`, `convertNewline` and
`removeBackspace`, followed by the properties proved about them.

Modelling choices.

* A Go `string` is a sequence of bytes: `Str := List (Fin 256)`.
* `int64` values are `Int`s; the two arithmetic operations of the program
  (`fileInfo.Size() - offset`, `offset + bytesRead`) wrap modulo `2^64`
  through `wrapInt64`.
* The Go functions return `(value, error)` pairs; so do their embeddings, with
  `Option GoError` for `error` (`none` is `nil`).
* The file system and the comment client are the environment: a `FileState`
  says what each call on the file answers, a `Client` what `PostComment`
  answers. Every embedded function also returns the list of `Event`s it
  performed, in order, so that "performs no read" or "posts once" can be stated.
* The regular expression is matched on bytes. Go decodes runes, but every class
  of the pattern is a range of ASCII bytes, and in Go's decoder a byte below
  `0x80` is always a rune of its own, so both views select the same matches.
-/

namespace Mop

/-! ## Strings -/

/-- A Go byte. -/
abbrev Byte := Fin 256

/-- A Go string, as its sequence of bytes. -/
abbrev Str := List Byte

/-! ## `regexp`: the fragment used by `ansiEscapeRegex` -/

/-- A character class given by one byte range, such as `[0-?]`; a literal byte
is the range from that byte to itself. -/
structure ByteClass where
  lo : Nat
  hi : Nat
deriving DecidableEq, Repr

/-- Membership of a byte in a class. -/
def ByteClass.mem (c : ByteClass) (b : Byte) : Bool :=
  decide (c.lo ≤ b.val) && decide (b.val ≤ c.hi)

/-- One factor of a pattern: a class matched once, or a greedy `*` of a class. -/
inductive Item where
  | one (c : ByteClass)
  | star (c : ByteClass)
deriving DecidableEq, Repr

/-- Greedy star with backtracking: take as many bytes of the class as possible,
giving bytes back one at a time while the rest of the pattern (`k`) fails. The
result is the number of bytes matched by the star and by `k` together. -/
def starLoop (c : ByteClass) (k : Str → Option Nat) : Str → Option Nat
  | [] => k []
  | b :: t =>
    if c.mem b then
      match starLoop c k t with
      | some n => some (n + 1)
      | none => k (b :: t)
    else k (b :: t)

/-- The match of a pattern anchored at the start of `s`, in the leftmost-first
(preference order) semantics of Go's `regexp`: `some n` when the pattern matches
the first `n` bytes of `s`, `none` when it does not match there. -/
def matchAt : List Item → Str → Option Nat
  | [] => fun _ => some 0
  | Item.one c :: items => fun s =>
    match s with
    | [] => none
    | b :: t => if c.mem b then (matchAt items t).map (· + 1) else none
  | Item.star c :: items => starLoop c (matchAt items)

/-- The loop of `Regexp.ReplaceAllString` with a literal replacement, for a
pattern that has no empty match: scan left to right; at a position where the
pattern matches `n + 1` bytes, emit the replacement and skip those bytes,
otherwise copy one byte. The first argument counts the bytes of the current
match still to skip. (A pattern with an empty match is outside this embedding;
`ansiEscapeRegex` needs at least three bytes.) -/
def replaceAllFrom (re : List Item) (repl : Str) : Nat → Str → Str
  | _, [] => []
  | skip + 1, _ :: t => replaceAllFrom re repl skip t
  | 0, b :: t =>
    match matchAt re (b :: t) with
    | some (n + 1) => repl ++ replaceAllFrom re repl n t
    | _ => b :: replaceAllFrom re repl 0 t

/-- `re.ReplaceAllString(src, repl)`. -/
def replaceAllString (re : List Item) (src repl : Str) : Str :=
  replaceAllFrom re repl 0 src

/-- The pattern of `ansiEscapeRegex`: the byte `\x1B`, the byte `[`, a greedy star
of the class `0` to `?`, a greedy star of the class space to `/`, and one byte of
the class `@` to `~`. -/
def ansiEscapeRegex : List Item :=
  [Item.one ⟨0x1B, 0x1B⟩, Item.one ⟨0x5B, 0x5B⟩,
   Item.star ⟨0x30, 0x3F⟩, Item.star ⟨0x20, 0x2F⟩, Item.one ⟨0x40, 0x7E⟩]

/-! ## `strings`: `ReplaceAll` and the generic `Replacer` -/

/-- The loop of `strings.ReplaceAll(s, old, new)` for a non-empty `old`:
non-overlapping occurrences of `old` are replaced from left to right. The first
argument counts the bytes of the current occurrence still to skip. (An empty
`old`, which Go treats rune by rune, is outside this embedding.) -/
def stringsReplaceFrom (old new : Str) : Nat → Str → Str
  | _, [] => []
  | skip + 1, _ :: t => stringsReplaceFrom old new skip t
  | 0, b :: t =>
    match old.length, old.isPrefixOf (b :: t) with
    | k + 1, true => new ++ stringsReplaceFrom old new k t
    | _, _ => b :: stringsReplaceFrom old new 0 t

/-- `strings.ReplaceAll(s, old, new)`. -/
def stringsReplaceAll (s old new : Str) : Str :=
  stringsReplaceFrom old new 0 s

/-- The lookup of the generic replacer at one position: the comparisons are done
in argument order, so the first pair whose `old` is a prefix of the rest of the
input wins. Returns the replacement and the length of the `old` it replaces. -/
def replacerLookup (oldnew : List (Str × Str)) (s : Str) : Option (Str × Nat) :=
  (oldnew.find? (fun p => p.1.isPrefixOf s)).map (fun p => (p.2, p.1.length))

/-- The loop of `(*Replacer).Replace` for the generic replacer with non-empty
`old` strings: at each position, replace the pair found by `replacerLookup` and
skip its `old`, otherwise copy one byte. The first argument counts the bytes of
the current `old` still to skip. -/
def replacerFrom (oldnew : List (Str × Str)) : Nat → Str → Str
  | _, [] => []
  | skip + 1, _ :: t => replacerFrom oldnew skip t
  | 0, b :: t =>
    match replacerLookup oldnew (b :: t) with
    | some (new, k + 1) => new ++ replacerFrom oldnew k t
    | _ => b :: replacerFrom oldnew 0 t

/-- `strings.NewReplacer(oldnew...).Replace(s)`. -/
def replacerReplace (oldnew : List (Str × Str)) (s : Str) : Str :=
  replacerFrom oldnew 0 s

/-! ## The text functions of `upload.go` -/

/-- `formatAsCodeBlock`: three backquotes (byte `0x60`) and a newline before the
content, a newline, three backquotes and a newline after it. -/
def formatAsCodeBlock (content : Str) : Str :=
  [0x60, 0x60, 0x60, 0x0A] ++ content ++ [0x0A, 0x60, 0x60, 0x60, 0x0A]

/-- `removeANSIEscapeSequences`. -/
def removeANSIEscapeSequences (input : Str) : Str :=
  replaceAllString ansiEscapeRegex input []

/-- `convertNewline`: the replacer of `"\r\n"`, `"\r"` and `"\n"` by `"\n"`. -/
def convertNewline (content : Str) : Str :=
  replacerReplace [([0x0D, 0x0A], [0x0A]), ([0x0D], [0x0A]), ([0x0A], [0x0A])] content

/-- `removeBackspace`. -/
def removeBackspace (content : Str) : Str :=
  stringsReplaceAll content [0x08] []

/-! ## Machine integers -/

/-- The value of an `int64` expression whose mathematical value is `x`. -/
def wrapInt64 (x : Int) : Int :=
  (x + 9223372036854775808) % 18446744073709551616 - 9223372036854775808

/-- The values an `int64` holds. -/
def IsInt64 (x : Int) : Prop :=
  -9223372036854775808 ≤ x ∧ x < 9223372036854775808

instance (x : Int) : Decidable (IsInt64 x) := by
  unfold IsInt64; infer_instance

/-! ## The environment: one file system, one comment client -/

/-- A Go `error` value of this program: the error made by `checkFileSize`
(`fmt.Errorf("file is too large")`), an error of the `os` and `io` calls, or an
error of the comment client. The environment's errors are told apart by a code. -/
inductive GoError where
  | fileTooLarge
  | os (code : Nat)
  | post (code : Nat)
deriving DecidableEq, Repr

/-- What the calls of one `readContent` observe of the file behind a path: the
error code, if any, of `os.Open`, `file.Stat`, `file.Seek` and `io.ReadAll`, the
size that `Stat` reports, and the bytes of the file when `ReadAll` runs. -/
structure FileState where
  openErr : Option Nat
  statErr : Option Nat
  size : Int
  seekErr : Option Nat
  readErr : Option Nat
  data : Str

/-- The comment client: the error code, if any, of `PostComment(issue, body)`. -/
structure Client where
  postComment : Int → Str → Option Nat

/-- An effect performed on the environment. -/
inductive Event where
  | opened (filepath : String)
  | statted
  | seeked (offset : Int)
  | readAll
  | closed
  | posted (issue : Int) (body : Str)
deriving DecidableEq, Repr

/-- The comments posted by a run, in order. -/
def posts : List Event → List (Int × Str)
  | [] => []
  | Event.posted issue body :: evs => (issue, body) :: posts evs
  | _ :: evs => posts evs

/-- `os.Open(filepath)`. -/
def osOpen (file : FileState) : Option GoError :=
  file.openErr.map GoError.os

/-- `file.Stat()`: the size and the error. -/
def fileStat (file : FileState) : Int × Option GoError :=
  match file.statErr with
  | some code => (0, some (GoError.os code))
  | none => (file.size, none)

/-- `file.Seek(offset, io.SeekStart)`: a negative position is refused
(`EINVAL`, code 22); a position past the end of the file is accepted, as
`lseek` does; other failures are the environment's. -/
def fileSeek (file : FileState) (offset : Int) : Option GoError :=
  if offset < 0 then some (GoError.os 22) else file.seekErr.map GoError.os

/-- `io.ReadAll(file)` after a seek to `offset`: the bytes from that position to
the end of the file, none when the position is at or past the end. -/
def ioReadAll (file : FileState) (offset : Int) : Str × Option GoError :=
  match file.readErr with
  | some code => ([], some (GoError.os code))
  | none => (file.data.drop offset.toNat, none)

/-- `client.PostComment(issue, comment)`. -/
def Client.PostComment (client : Client) (issue : Int) (comment : Str) : Option GoError :=
  (client.postComment issue comment).map GoError.post

/-! ## `checkFileSize`, `readContent`, `UploadResult` -/

/-- `checkFileSize`. -/
def checkFileSize (file : FileState) (offset : Int) : Option GoError :=
  match fileStat file with
  | (_, some e) => some e
  | (size, none) =>
    if wrapInt64 (size - offset) > 65000 then some GoError.fileTooLarge
    else none

/-- `readContent`: the content and error it returns, and the events it
performed (the deferred `Close` runs on every exit after a successful open). -/
def readContent (files : String → FileState) (filepath : String) (offset : Int) :
    (Str × Option GoError) × List Event :=
  let file := files filepath
  match osOpen file with
  | some e => (([], some e), [Event.opened filepath])
  | none =>
    match checkFileSize file offset with
    | some e => (([], some e), [Event.opened filepath, Event.statted, Event.closed])
    | none =>
      match fileSeek file offset with
      | some e =>
        (([], some e),
          [Event.opened filepath, Event.statted, Event.seeked offset, Event.closed])
      | none =>
        match ioReadAll file offset with
        | (_, some e) =>
          (([], some e),
            [Event.opened filepath, Event.statted, Event.seeked offset, Event.readAll,
             Event.closed])
        | (content, none) =>
          ((content, none),
            [Event.opened filepath, Event.statted, Event.seeked offset, Event.readAll,
             Event.closed])

/-- `UploadResult`: the offset and error it returns, and the events it
performed. -/
def UploadResult (files : String → FileState) (client : Client) (issue : Int)
    (filepath : String) (offset : Int) (removeEscSequences : Bool) :
    (Int × Option GoError) × List Event :=
  match readContent files filepath offset with
  | ((_, some e), evs) => ((0, some e), evs)
  | ((content, none), evs) =>
    let bytesRead : Int := content.length
    let content1 :=
      if removeEscSequences then removeBackspace (removeANSIEscapeSequences content)
      else content
    let content2 := convertNewline content1
    let comment := formatAsCodeBlock content2
    match client.PostComment issue comment with
    | some e => ((0, some e), evs ++ [Event.posted issue comment])
    | none => ((wrapInt64 (offset + bytesRead), none), evs ++ [Event.posted issue comment])

/-! ## The CSI grammar of the specification -/

/-- A CSI escape sequence, in the words of the specification: the byte ESC
(`0x1B`), the byte `[`, zero or more parameter bytes in `0x30` to `0x3F`, zero
or more intermediate bytes in `0x20` to `0x2F`, and one final byte in `0x40` to
`0x7E`. -/
def IsCSI (c : Str) : Prop :=
  ∃ (params inter : Str) (final : Byte),
    c = 0x1B :: 0x5B :: (params ++ inter ++ [final]) ∧
    (∀ p ∈ params, 0x30 ≤ p.val ∧ p.val ≤ 0x3F) ∧
    (∀ i ∈ inter, 0x20 ≤ i.val ∧ i.val ≤ 0x2F) ∧
    (0x40 ≤ final.val ∧ final.val ≤ 0x7E)

/-- The string has a substring that is a CSI escape sequence. -/
def ContainsCSI (s : Str) : Prop :=
  ∃ a c b, s = a ++ c ++ b ∧ IsCSI c

/-- The string `c1 t1 ... cn tn` made of the pairs `(ci, ti)`. -/
def joinWithEscapes : List (Str × Str) → Str
  | [] => []
  | (c, t) :: rest => c ++ t ++ joinWithEscapes rest

/-- The string `t1 ... tn` made of the second components of the pairs `(ci, ti)`. -/
def joinTexts : List (Str × Str) → Str
  | [] => []
  | (_, t) :: rest => t ++ joinTexts rest

/-- The bytes of a string that are not ASCII (`0x80` and above), in order: the
bytes that multi-byte characters are made of. -/
def highBytes (s : Str) : Str :=
  s.filter (fun b => decide (0x80 ≤ b.val))

/-! ## Concrete environments, used to instantiate the theorems -/

/-- A readable file holding `data`, on which every call succeeds. -/
def plainFile (data : Str) : FileState :=
  { openErr := none, statErr := none, size := data.length, seekErr := none,
    readErr := none, data := data }

/-- A file system in which every path leads to `plainFile data`. -/
def plainFiles (data : Str) : String → FileState :=
  fun _ => plainFile data

/-- A readable file of `n` bytes (each the letter `a`), on which every call
succeeds. -/
def sizedFile (n : Nat) : FileState :=
  { openErr := none, statErr := none, size := (n : Int), seekErr := none,
    readErr := none, data := List.replicate n 0x61 }

/-- A file system in which every path leads to `sizedFile n`. -/
def sizedFiles (n : Nat) : String → FileState :=
  fun _ => sizedFile n

/-- A client whose `PostComment` always succeeds. -/
def okClient : Client :=
  { postComment := fun _ _ => none }

/-- A client whose `PostComment` always fails. -/
def failingClient : Client :=
  { postComment := fun _ _ => some 1 }

/-! ## Offsets, errors and the size ceiling -/

theorem wrapInt64_of_isInt64 {x : Int} (h : IsInt64 x) : wrapInt64 x = x := by
  unfold IsInt64 at h
  unfold wrapInt64
  omega

/-- The difference of two non-negative `int64` values is representable: the
subtraction in `checkFileSize` does not wrap for a non-negative size and offset. -/
theorem isInt64_sub_of_nonneg {a b : Int} (ha : IsInt64 a) (hb : IsInt64 b) (ha0 : 0 ≤ a)
    (hb0 : 0 ≤ b) : IsInt64 (a - b) := by
  unfold IsInt64 at ha hb ⊢
  omega

/-- What a successful `readContent` tells: the position was not negative, the
content is the file from that position on, and the size check passed. -/
theorem readContent_ok {files : String → FileState} {filepath : String} {offset : Int}
    {raw : Str} {evs : List Event}
    (h : readContent files filepath offset = ((raw, none), evs)) :
    0 ≤ offset ∧ raw = (files filepath).data.drop offset.toNat ∧
      checkFileSize (files filepath) offset = none ∧
      evs = [Event.opened filepath, Event.statted, Event.seeked offset, Event.readAll,
        Event.closed] := by
  unfold readContent at h
  simp only at h
  split at h
  · simp at h
  · split at h
    · simp at h
    · rename_i hcheck
      split at h
      · simp at h
      · rename_i hseek
        have hoff : 0 ≤ offset := by
          unfold fileSeek at hseek
          split at hseek
          · simp at hseek
          · omega
        split at h
        · simp at h
        · rename_i content hread
          unfold ioReadAll at hread
          split at hread
          · simp at hread
          · simp only [Prod.mk.injEq, and_true] at hread
            simp only [Prod.mk.injEq, and_true] at h
            exact ⟨hoff, by rw [← h.1, ← hread], hcheck, h.2.symm⟩

/-- The return value and events of `UploadResult` once `readContent` has
succeeded. -/
theorem UploadResult_of_read {files : String → FileState} {filepath : String}
    {offset : Int} {raw : Str} {evs : List Event} (client : Client) (issue : Int)
    (flag : Bool) (h : readContent files filepath offset = ((raw, none), evs)) :
    UploadResult files client issue filepath offset flag =
      let body := formatAsCodeBlock (convertNewline
        (if flag then removeBackspace (removeANSIEscapeSequences raw) else raw))
      match client.PostComment issue body with
      | some e => ((0, some e), evs ++ [Event.posted issue body])
      | none => ((wrapInt64 (offset + (raw.length : Int)), none),
          evs ++ [Event.posted issue body]) := by
  unfold UploadResult
  rw [h]

/-- The return value and events of `UploadResult` when `readContent` fails. -/
theorem UploadResult_of_read_error {files : String → FileState} {filepath : String}
    {offset : Int} {raw : Str} {e : GoError} {evs : List Event} (client : Client)
    (issue : Int) (flag : Bool)
    (h : readContent files filepath offset = ((raw, some e), evs)) :
    UploadResult files client issue filepath offset flag = ((0, some e), evs) := by
  unfold UploadResult
  rw [h]

/-- No event of `readContent` is a post. -/
theorem posts_readContent (files : String → FileState) (filepath : String) (offset : Int) :
    posts (readContent files filepath offset).2 = [] := by
  unfold readContent
  simp only
  split
  · rfl
  · split
    · rfl
    · split
      · rfl
      · split <;> rfl

theorem posts_append (xs ys : List Event) : posts (xs ++ ys) = posts xs ++ posts ys := by
  induction xs with
  | nil => rfl
  | cons x xs ih =>
    cases x <;> simp [posts, ih]

/-- After a successful read, the run posts once: the formatted, sanitised
content, on the given issue. -/
theorem posts_UploadResult_of_read {files : String → FileState} {filepath : String}
    {offset : Int} {raw : Str} {evs0 : List Event} (client : Client) (issue : Int)
    (flag : Bool) (hread : readContent files filepath offset = ((raw, none), evs0)) :
    posts (UploadResult files client issue filepath offset flag).2 =
      [(issue, formatAsCodeBlock (convertNewline
        (if flag = true then removeBackspace (removeANSIEscapeSequences raw) else raw)))] := by
  have hp : posts evs0 = [] := by
    have := posts_readContent files filepath offset
    rw [hread] at this
    exact this
  rw [UploadResult_of_read client issue flag hread]
  simp only
  split <;> simp [posts_append, hp, posts]

/-! ## The matcher of `ansiEscapeRegex` -/

theorem takeWhile_append_stop {p : Byte → Bool} (xs : Str) (y : Byte) (ys : Str)
    (hxs : ∀ x ∈ xs, p x = true) (hy : p y = false) :
    (xs ++ y :: ys).takeWhile p = xs ∧ (xs ++ y :: ys).dropWhile p = y :: ys := by
  induction xs with
  | nil => simp [List.takeWhile, List.dropWhile, hy]
  | cons x xs ih =>
    have hx : p x = true := hxs x (List.mem_cons_self x xs)
    have := ih (fun z hz => hxs z (List.mem_cons_of_mem x hz))
    simp [List.takeWhile, List.dropWhile, hx, this]

/-- A star whose continuation rejects every string that starts with a byte of
the class never gives a byte back: it takes the longest run of the class. -/
theorem starLoop_eq_of_reject (c : ByteClass) (k : Str → Option Nat)
    (hk : ∀ b t, c.mem b = true → k (b :: t) = none) (s : Str) :
    starLoop c k s =
      (k (s.dropWhile c.mem)).map (· + (s.takeWhile c.mem).length) := by
  induction s with
  | nil => cases h : k [] <;> simp [starLoop, h]
  | cons b t ih =>
    by_cases hb : c.mem b = true
    · simp only [starLoop, hb, if_true, List.dropWhile_cons_of_pos, List.takeWhile_cons_of_pos,
        List.length_cons]
      rw [ih]
      cases h : k (List.dropWhile c.mem t) with
      | none => simp [hk b t hb]
      | some n => simp; omega
    · have hb2 : c.mem b = false := by simpa using hb
      cases h : k (b :: t) <;> simp [starLoop, hb2, h, List.dropWhile, List.takeWhile]


/-- The continuation after the two stars: one final byte. -/
theorem matchAt_final (s : Str) :
    matchAt [Item.one ⟨0x40, 0x7E⟩] s =
      match s with
      | [] => none
      | f :: _ => if (0x40 ≤ f.val ∧ f.val ≤ 0x7E) then some 1 else none := by
  cases s with
  | nil => rfl
  | cons f t =>
    by_cases h : (0x40 ≤ f.val ∧ f.val ≤ 0x7E)
    · simp [matchAt, ByteClass.mem, h]
    · simp only [matchAt, ByteClass.mem, h, if_false]
      simp
      omega

theorem matchAt_inter (s : Str) :
    matchAt [Item.star ⟨0x20, 0x2F⟩, Item.one ⟨0x40, 0x7E⟩] s =
      (matchAt [Item.one ⟨0x40, 0x7E⟩] (s.dropWhile (ByteClass.mem ⟨0x20, 0x2F⟩))).map
        (· + (s.takeWhile (ByteClass.mem ⟨0x20, 0x2F⟩)).length) := by
  show starLoop ⟨0x20, 0x2F⟩ (matchAt [Item.one ⟨0x40, 0x7E⟩]) s = _
  apply starLoop_eq_of_reject
  intro b t hb
  rw [matchAt_final]
  simp only [ByteClass.mem, Bool.and_eq_true, decide_eq_true_eq] at hb
  simp only
  rw [if_neg (by omega)]

theorem matchAt_params (s : Str) :
    matchAt [Item.star ⟨0x30, 0x3F⟩, Item.star ⟨0x20, 0x2F⟩, Item.one ⟨0x40, 0x7E⟩] s =
      (matchAt [Item.star ⟨0x20, 0x2F⟩, Item.one ⟨0x40, 0x7E⟩]
        (s.dropWhile (ByteClass.mem ⟨0x30, 0x3F⟩))).map
        (· + (s.takeWhile (ByteClass.mem ⟨0x30, 0x3F⟩)).length) := by
  show starLoop ⟨0x30, 0x3F⟩
    (matchAt [Item.star ⟨0x20, 0x2F⟩, Item.one ⟨0x40, 0x7E⟩]) s = _
  apply starLoop_eq_of_reject
  intro b t hb
  simp only [ByteClass.mem, Bool.and_eq_true, decide_eq_true_eq] at hb
  have hnot : ByteClass.mem ⟨0x20, 0x2F⟩ b = false := by
    simp only [ByteClass.mem, Bool.and_eq_false_iff, decide_eq_false_iff_not]
    omega
  rw [matchAt_inter, List.dropWhile_cons_of_neg (by simp [hnot]), matchAt_final]
  simp only
  rw [if_neg (by omega)]
  rfl

theorem matchAt_one_cons (c : ByteClass) (items : List Item) (b : Byte) (t : Str) :
    matchAt (Item.one c :: items) (b :: t) =
      if c.mem b = true then (matchAt items t).map (· + 1) else none := rfl

theorem matchAt_ansi_cons (b0 b1 : Byte) (r : Str) :
    matchAt ansiEscapeRegex (b0 :: b1 :: r) =
      if b0 = 0x1B ∧ b1 = 0x5B then
        (matchAt [Item.star ⟨0x30, 0x3F⟩, Item.star ⟨0x20, 0x2F⟩, Item.one ⟨0x40, 0x7E⟩]
          r).map (· + 2)
      else none := by
  have e0 : (ByteClass.mem ⟨0x1B, 0x1B⟩ b0 = true) ↔ b0 = 0x1B := by
    simp only [ByteClass.mem, Bool.and_eq_true, decide_eq_true_eq]
    constructor
    · intro h; apply Fin.ext; show _ = (27 : Nat); omega
    · intro h; subst h; decide
  have e1 : (ByteClass.mem ⟨0x5B, 0x5B⟩ b1 = true) ↔ b1 = 0x5B := by
    simp only [ByteClass.mem, Bool.and_eq_true, decide_eq_true_eq]
    constructor
    · intro h; apply Fin.ext; show _ = (91 : Nat); omega
    · intro h; subst h; decide
  unfold ansiEscapeRegex
  rw [matchAt_one_cons]
  by_cases h0 : b0 = 0x1B
  · rw [if_pos (e0.mpr h0)]
    rw [matchAt_one_cons]
    by_cases h1 : b1 = 0x5B
    · rw [if_pos (e1.mpr h1), if_pos ⟨h0, h1⟩]
      cases matchAt [Item.star ⟨0x30, 0x3F⟩, Item.star ⟨0x20, 0x2F⟩,
        Item.one ⟨0x40, 0x7E⟩] r <;> simp
    · rw [if_neg (fun h => h1 (e1.mp h)), if_neg (fun h => h1 h.2)]
      rfl
  · rw [if_neg (fun h => h0 (e0.mp h)), if_neg (fun h => h0 h.1)]


theorem matchAt_ansi_short (s : Str) (h : s.length < 2) : matchAt ansiEscapeRegex s = none := by
  match s, h with
  | [], _ => rfl
  | [b], _ =>
    unfold ansiEscapeRegex
    rw [matchAt_one_cons]
    split <;> rfl

/-- Soundness of the matcher: what `ansiEscapeRegex` matches at the start of a
string is a CSI sequence. -/
theorem matchAt_ansi_sound (s : Str) (n : Nat) (h : matchAt ansiEscapeRegex s = some n) :
    ∃ c rest, s = c ++ rest ∧ c.length = n ∧ IsCSI c := by
  match s with
  | [] => rw [matchAt_ansi_short [] (by simp)] at h; simp at h
  | [b] => rw [matchAt_ansi_short [b] (by simp)] at h; simp at h
  | b0 :: b1 :: r =>
    rw [matchAt_ansi_cons] at h
    split at h
    · rename_i hb
      obtain ⟨rfl, rfl⟩ := hb
      rw [matchAt_params, matchAt_inter, matchAt_final] at h
      have hr : r = r.takeWhile (ByteClass.mem ⟨0x30, 0x3F⟩) ++
          r.dropWhile (ByteClass.mem ⟨0x30, 0x3F⟩) := (List.takeWhile_append_dropWhile _ r).symm
      have hr1 : r.dropWhile (ByteClass.mem ⟨0x30, 0x3F⟩) =
          (r.dropWhile (ByteClass.mem ⟨0x30, 0x3F⟩)).takeWhile (ByteClass.mem ⟨0x20, 0x2F⟩) ++
          (r.dropWhile (ByteClass.mem ⟨0x30, 0x3F⟩)).dropWhile (ByteClass.mem ⟨0x20, 0x2F⟩) :=
        (List.takeWhile_append_dropWhile _ _).symm
      generalize hps : r.takeWhile (ByteClass.mem ⟨0x30, 0x3F⟩) = ps at h hr hr1
      generalize hr1e : r.dropWhile (ByteClass.mem ⟨0x30, 0x3F⟩) = r1 at h hr hr1
      generalize his : r1.takeWhile (ByteClass.mem ⟨0x20, 0x2F⟩) = is at h hr1
      generalize hr2e : r1.dropWhile (ByteClass.mem ⟨0x20, 0x2F⟩) = r2 at h hr1
      cases r2 with
      | nil => simp at h
      | cons f rest =>
        simp only at h
        split at h
        · rename_i hf
          simp only [Option.map_some', Option.some.injEq] at h
          refine ⟨0x1B :: 0x5B :: (ps ++ is ++ [f]), rest, ?_, ?_, ps, is, f, rfl, ?_, ?_, hf⟩
          · rw [hr, hr1]; simp
          · simp; omega
          · intro p hp
            rw [← hps] at hp
            have := List.mem_takeWhile_imp hp
            simpa [ByteClass.mem] using this
          · intro i hi
            rw [← his] at hi
            have := List.mem_takeWhile_imp hi
            simpa [ByteClass.mem] using this
        · simp at h
    · simp at h

/-- Completeness of the matcher: at the start of a CSI sequence, whatever
follows it, `ansiEscapeRegex` matches exactly that sequence. -/
theorem matchAt_ansi_complete (c rest : Str) (h : IsCSI c) :
    matchAt ansiEscapeRegex (c ++ rest) = some c.length := by
  obtain ⟨ps, is, f, rfl, hps, his, hf⟩ := h
  have hPs : ∀ x ∈ ps, ByteClass.mem ⟨0x30, 0x3F⟩ x = true := by
    intro x hx; simpa [ByteClass.mem] using hps x hx
  have hIs : ∀ x ∈ is, ByteClass.mem ⟨0x20, 0x2F⟩ x = true := by
    intro x hx; simpa [ByteClass.mem] using his x hx
  have hfP : ByteClass.mem ⟨0x30, 0x3F⟩ f = false := by
    simp only [ByteClass.mem, Bool.and_eq_false_iff, decide_eq_false_iff_not]; omega
  have hfI : ByteClass.mem ⟨0x20, 0x2F⟩ f = false := by
    simp only [ByteClass.mem, Bool.and_eq_false_iff, decide_eq_false_iff_not]; omega
  have hP : (ps ++ (is ++ f :: rest)).takeWhile (ByteClass.mem ⟨0x30, 0x3F⟩) = ps ∧
      (ps ++ (is ++ f :: rest)).dropWhile (ByteClass.mem ⟨0x30, 0x3F⟩) = is ++ f :: rest := by
    cases is with
    | nil => exact takeWhile_append_stop ps f rest hPs hfP
    | cons i is' =>
      have hi := his i (List.mem_cons_self i is')
      apply takeWhile_append_stop ps i (is' ++ f :: rest) hPs
      simp only [ByteClass.mem, Bool.and_eq_false_iff, decide_eq_false_iff_not]; omega
  have hI := takeWhile_append_stop is f rest hIs hfI
  have e : (0x1B :: 0x5B :: (ps ++ is ++ [f]) : Str) ++ rest =
      0x1B :: 0x5B :: (ps ++ (is ++ f :: rest)) := by simp
  rw [e, matchAt_ansi_cons, if_pos ⟨rfl, rfl⟩, matchAt_params, hP.1, hP.2, matchAt_inter,
    hI.1, hI.2, matchAt_final]
  simp only
  rw [if_pos hf]
  simp
  omega


/-- Skipping the bytes of a match: after `pre.length` skips the scan resumes
behind `pre`. -/
theorem replaceAllFrom_skip (re : List Item) (repl : Str) (pre rest : Str) :
    replaceAllFrom re repl pre.length (pre ++ rest) = replaceAllFrom re repl 0 rest := by
  induction pre with
  | nil => rfl
  | cons b pre ih =>
    cases hr : pre ++ rest with
    | nil => simp at hr; simp [hr, replaceAllFrom]
    | cons x y => simp only [List.length_cons, List.cons_append, replaceAllFrom]; exact ih

theorem removeANSI_nil : removeANSIEscapeSequences [] = [] := rfl

/-- A CSI sequence at the start of the input is removed, and the scan goes on
behind it. -/
theorem removeANSI_csi_append (c rest : Str) (h : IsCSI c) :
    removeANSIEscapeSequences (c ++ rest) = removeANSIEscapeSequences rest := by
  have hm := matchAt_ansi_complete c rest h
  obtain ⟨ps, is, f, rfl, -, -, -⟩ := h
  unfold removeANSIEscapeSequences replaceAllString
  simp only [List.cons_append] at hm ⊢
  rw [replaceAllFrom, hm]
  simp only [List.length_cons, List.nil_append]
  have := replaceAllFrom_skip ansiEscapeRegex [] (0x5B :: (ps ++ is ++ [f])) rest
  simpa using this

/-- Where the pattern does not match, one byte is copied. -/
theorem removeANSI_cons_of_none (b : Byte) (t : Str)
    (h : matchAt ansiEscapeRegex (b :: t) = none) :
    removeANSIEscapeSequences (b :: t) = b :: removeANSIEscapeSequences t := by
  unfold removeANSIEscapeSequences replaceAllString
  rw [replaceAllFrom, h]

theorem matchAt_ansi_of_ne_esc (b : Byte) (t : Str) (h : b ≠ 0x1B) :
    matchAt ansiEscapeRegex (b :: t) = none := by
  cases t with
  | nil => exact matchAt_ansi_short [b] (by simp)
  | cons b1 r => rw [matchAt_ansi_cons, if_neg (fun hh => h hh.1)]

/-- A text without ESC is copied as it is. -/
theorem removeANSI_text_append (t rest : Str) (h : (0x1B : Byte) ∉ t) :
    removeANSIEscapeSequences (t ++ rest) = t ++ removeANSIEscapeSequences rest := by
  induction t with
  | nil => rfl
  | cons b t ih =>
    have hb : b ≠ 0x1B := fun e => h (by simp [e])
    have ht : (0x1B : Byte) ∉ t := fun e => h (List.mem_cons_of_mem b e)
    rw [List.cons_append, removeANSI_cons_of_none b (t ++ rest) (matchAt_ansi_of_ne_esc b _ hb),
      ih ht, List.cons_append]

theorem removeANSI_join (t0 : Str) (segs : List (Str × Str)) (h0 : (0x1B : Byte) ∉ t0)
    (hsegs : ∀ p ∈ segs, IsCSI p.1 ∧ (0x1B : Byte) ∉ p.2) :
    removeANSIEscapeSequences (t0 ++ joinWithEscapes segs) = t0 ++ joinTexts segs := by
  rw [removeANSI_text_append t0 _ h0]
  congr 1
  induction segs with
  | nil => rfl
  | cons p segs ih =>
    obtain ⟨c, t⟩ := p
    have hp := hsegs (c, t) (List.mem_cons_self _ _)
    simp only [joinWithEscapes, joinTexts, List.append_assoc]
    rw [removeANSI_csi_append c _ hp.1, removeANSI_text_append t _ hp.2,
      ih (fun q hq => hsegs q (List.mem_cons_of_mem _ hq))]

theorem not_containsCSI_tail {b : Byte} {t : Str} (h : ¬ ContainsCSI (b :: t)) :
    ¬ ContainsCSI t := by
  rintro ⟨a, c, r, rfl, hc⟩
  exact h ⟨b :: a, c, r, by simp, hc⟩

theorem matchAt_ansi_none_of_not_contains {s : Str} (h : ¬ ContainsCSI s) :
    matchAt ansiEscapeRegex s = none := by
  cases hm : matchAt ansiEscapeRegex s with
  | none => rfl
  | some n =>
    obtain ⟨c, rest, rfl, -, hc⟩ := matchAt_ansi_sound s n hm
    exact absurd ⟨[], c, rest, by simp, hc⟩ h

theorem removeANSI_unchanged (s : Str) (h : ¬ ContainsCSI s) :
    removeANSIEscapeSequences s = s := by
  induction s with
  | nil => rfl
  | cons b t ih =>
    rw [removeANSI_cons_of_none b t (matchAt_ansi_none_of_not_contains h),
      ih (not_containsCSI_tail h)]


theorem IsCSI.length_pos {c : Str} (h : IsCSI c) : 0 < c.length := by
  obtain ⟨ps, is, f, rfl, -, -, -⟩ := h
  simp

/-! ## `removeBackspace` and `convertNewline`, byte by byte -/

theorem removeBackspace_eq_filter (s : Str) :
    removeBackspace s = s.filter (fun b => b ≠ 0x08) := by
  unfold removeBackspace stringsReplaceAll
  induction s with
  | nil => rfl
  | cons b t ih =>
    by_cases hb : b = 0x08
    · subst hb
      simp [stringsReplaceFrom, ih]
    · have hb2 : ¬ ((0x08 : Byte) = b) := fun h => hb h.symm
      simp [stringsReplaceFrom, ih, hb, hb2]

theorem convertNewline_nil : convertNewline [] = [] := rfl

theorem convertNewline_crlf (t : Str) :
    convertNewline (0x0D :: 0x0A :: t) = 0x0A :: convertNewline t := by
  simp [convertNewline, replacerReplace, replacerFrom, replacerLookup]

theorem convertNewline_cr (t : Str) (h : t.head? ≠ some 0x0A) :
    convertNewline (0x0D :: t) = 0x0A :: convertNewline t := by
  cases t with
  | nil => simp [convertNewline, replacerReplace, replacerFrom, replacerLookup]
  | cons c t =>
    have hc : ¬ ((0x0A : Byte) = c) := by
      intro hc; apply h; simp [hc]
    simp [convertNewline, replacerReplace, replacerFrom, replacerLookup, hc]

theorem convertNewline_other (b : Byte) (t : Str) (h : b ≠ 0x0D) :
    convertNewline (b :: t) = b :: convertNewline t := by
  have h1 : ¬ ((0x0D : Byte) = b) := fun e => h e.symm
  by_cases h2 : (0x0A : Byte) = b
  · subst h2
    simp [convertNewline, replacerReplace, replacerFrom, replacerLookup]
  · simp [convertNewline, replacerReplace, replacerFrom, replacerLookup, h1, h2]

/-! ## Lengths, and the scan of `convertNewline` -/

theorem replaceAllFrom_length_le (re : List Item) (k : Nat) (s : Str) :
    (replaceAllFrom re [] k s).length ≤ s.length := by
  induction s generalizing k with
  | nil => simp [replaceAllFrom]
  | cons b t ih =>
    cases k with
    | succ k =>
      simp only [replaceAllFrom, List.length_cons]
      exact Nat.le_succ_of_le (ih k)
    | zero =>
      rw [replaceAllFrom]
      split
      · simp only [List.nil_append, List.length_cons]
        exact Nat.le_succ_of_le (ih _)
      · simp only [List.length_cons]
        exact Nat.succ_le_succ (ih 0)

theorem removeANSI_length_le (s : Str) : (removeANSIEscapeSequences s).length ≤ s.length :=
  replaceAllFrom_length_le ansiEscapeRegex 0 s

theorem removeBackspace_length_le (s : Str) : (removeBackspace s).length ≤ s.length := by
  rw [removeBackspace_eq_filter]
  exact List.length_filter_le _ s

/-- Induction along the scan of `convertNewline`: the empty string, a `"\r\n"`
pair, a `"\r"` not followed by `"\n"`, any other byte. -/
theorem convertNewline_scan_induction (P : Str → Prop) (hnil : P [])
    (hcrlf : ∀ t, P t → P (0x0D :: 0x0A :: t))
    (hcr : ∀ t, t.head? ≠ some 0x0A → P t → P (0x0D :: t))
    (hother : ∀ b t, b ≠ 0x0D → P t → P (b :: t)) (s : Str) : P s := by
  suffices H : ∀ (n : Nat) (s : Str), s.length ≤ n → P s from H _ s (Nat.le_refl _)
  intro n
  induction n with
  | zero =>
    intro s hs
    cases s with
    | nil => exact hnil
    | cons b t => simp at hs
  | succ n ih =>
    intro s hs
    cases s with
    | nil => exact hnil
    | cons b t =>
      have ht : t.length ≤ n := by simp at hs; omega
      by_cases hb : b = 0x0D
      · subst hb
        by_cases hh : t.head? = some 0x0A
        · cases t with
          | nil => simp at hh
          | cons c t' =>
            simp only [List.head?_cons, Option.some.injEq] at hh
            subst hh
            exact hcrlf t' (ih t' (by simp at ht; omega))
        · exact hcr t hh (ih t ht)
      · exact hother b t hb (ih t ht)

theorem convertNewline_length_le (s : Str) : (convertNewline s).length ≤ s.length := by
  induction s using convertNewline_scan_induction with
  | hnil => simp [convertNewline_nil]
  | hcrlf t ih => rw [convertNewline_crlf]; simp only [List.length_cons]; omega
  | hcr t h ih => rw [convertNewline_cr t h]; simp only [List.length_cons]; omega
  | hother b t h ih => rw [convertNewline_other b t h]; simp only [List.length_cons]; omega

theorem convertNewline_no_cr (s : Str) : (0x0D : Byte) ∉ convertNewline s := by
  induction s using convertNewline_scan_induction with
  | hnil => simp [convertNewline_nil]
  | hcrlf t ih =>
    rw [convertNewline_crlf]
    intro h
    rcases List.mem_cons.mp h with h | h
    · exact absurd h (by decide)
    · exact ih h
  | hcr t hh ih =>
    rw [convertNewline_cr t hh]
    intro h
    rcases List.mem_cons.mp h with h | h
    · exact absurd h (by decide)
    · exact ih h
  | hother b t hb ih =>
    rw [convertNewline_other b t hb]
    intro h
    rcases List.mem_cons.mp h with h | h
    · exact hb h.symm
    · exact ih h

theorem formatAsCodeBlock_length (c : Str) : (formatAsCodeBlock c).length = c.length + 9 := by
  simp [formatAsCodeBlock]

/-- A string none of whose suffixes the pattern matches contains no CSI
sequence. -/
theorem not_containsCSI_of_tails (s : Str)
    (h : ∀ r ∈ s.tails, matchAt ansiEscapeRegex r = none) : ¬ ContainsCSI s := by
  rintro ⟨a, c, b, rfl, hc⟩
  have hmem : c ++ b ∈ (a ++ c ++ b).tails := by
    rw [List.mem_tails, List.append_assoc]
    exact List.suffix_append a (c ++ b)
  have := h _ hmem
  rw [matchAt_ansi_complete c b hc] at this
  simp at this

/-! ## Bytes above ASCII, and the scan of `removeANSIEscapeSequences` -/

/-- Induction along the scan of `removeANSIEscapeSequences`: the empty string, a
CSI sequence that the pattern matches, a byte where the pattern does not match. -/
theorem removeANSI_scan_induction (P : Str → Prop) (hnil : P [])
    (hcsi : ∀ c rest, IsCSI c → P rest → P (c ++ rest))
    (hcopy : ∀ b t, matchAt ansiEscapeRegex (b :: t) = none → P t → P (b :: t))
    (s : Str) : P s := by
  suffices H : ∀ (n : Nat) (s : Str), s.length ≤ n → P s from H _ s (Nat.le_refl _)
  intro n
  induction n with
  | zero =>
    intro s hs
    cases s with
    | nil => exact hnil
    | cons b t => simp at hs
  | succ n ih =>
    intro s hs
    cases s with
    | nil => exact hnil
    | cons b t =>
      cases hm : matchAt ansiEscapeRegex (b :: t) with
      | none => exact hcopy b t hm (ih t (by simp at hs; omega))
      | some m =>
        obtain ⟨c, rest, hsplit, -, hc⟩ := matchAt_ansi_sound _ m hm
        rw [hsplit]
        apply hcsi c rest hc
        apply ih
        have := hc.length_pos
        have hl := congrArg List.length hsplit
        simp at hl hs
        omega

theorem highBytes_append (a b : Str) : highBytes (a ++ b) = highBytes a ++ highBytes b := by
  simp [highBytes]

theorem highBytes_cons_ascii (b : Byte) (t : Str) (h : b.val < 0x80) :
    highBytes (b :: t) = highBytes t := by
  have : ¬ (128 ≤ b.val) := by omega
  simp [highBytes, this]

theorem highBytes_cons (b : Byte) (t : Str) :
    highBytes (b :: t) = (if 0x80 ≤ b.val then [b] else []) ++ highBytes t := by
  by_cases h : 0x80 ≤ b.val <;> simp [highBytes, h]

theorem highBytes_csi (c : Str) (h : IsCSI c) : highBytes c = [] := by
  obtain ⟨ps, is, f, rfl, hps, his, hf⟩ := h
  unfold highBytes
  rw [List.filter_eq_nil_iff]
  intro b hb
  simp only [List.mem_cons, List.mem_append, List.mem_singleton, List.not_mem_nil,
    or_false] at hb
  simp only [decide_eq_true_eq, not_le]
  rcases hb with rfl | rfl | (hb | hb) | rfl
  · decide
  · decide
  · have := hps b hb; omega
  · have := his b hb; omega
  · omega

theorem highBytes_removeANSI (s : Str) :
    highBytes (removeANSIEscapeSequences s) = highBytes s := by
  induction s using removeANSI_scan_induction with
  | hnil => rfl
  | hcsi c rest hc ih =>
    rw [removeANSI_csi_append c rest hc, ih, highBytes_append, highBytes_csi c hc,
      List.nil_append]
  | hcopy b t hm ih =>
    rw [removeANSI_cons_of_none b t hm, highBytes_cons, highBytes_cons, ih]

theorem highBytes_removeBackspace (s : Str) : highBytes (removeBackspace s) = highBytes s := by
  rw [removeBackspace_eq_filter]
  induction s with
  | nil => rfl
  | cons b t ih =>
    by_cases hb : b = 0x08
    · subst hb
      rw [highBytes_cons_ascii _ t (by decide)]
      simpa using ih
    · rw [List.filter_cons_of_pos (by simpa using hb), highBytes_cons, highBytes_cons, ih]

theorem highBytes_convertNewline (s : Str) : highBytes (convertNewline s) = highBytes s := by
  induction s using convertNewline_scan_induction with
  | hnil => rfl
  | hcrlf t ih =>
    rw [convertNewline_crlf, highBytes_cons_ascii _ _ (by decide),
      highBytes_cons_ascii _ _ (by decide), highBytes_cons_ascii _ _ (by decide), ih]
  | hcr t h ih =>
    rw [convertNewline_cr t h, highBytes_cons_ascii _ _ (by decide),
      highBytes_cons_ascii _ _ (by decide), ih]
  | hother b t h ih =>
    rw [convertNewline_other b t h, highBytes_cons, highBytes_cons, ih]

theorem convertNewline_of_no_cr (s : Str) (h : (0x0D : Byte) ∉ s) : convertNewline s = s := by
  induction s with
  | nil => rfl
  | cons b t ih =>
    have hb : b ≠ 0x0D := fun e => h (by simp [e])
    have ht : (0x0D : Byte) ∉ t := fun e => h (List.mem_cons_of_mem b e)
    rw [convertNewline_other b t hb, ih ht]

/-! ## `readContent` on a file whose calls succeed -/

/-- When the open, the stat, the size check, the seek and the read all succeed,
`readContent` returns the file from the offset on. -/
theorem readContent_of_ok (files : String → FileState) (filepath : String) (offset : Int)
    (hopen : (files filepath).openErr = none) (hstat : (files filepath).statErr = none)
    (hcheck : wrapInt64 ((files filepath).size - offset) ≤ 65000) (hoff : 0 ≤ offset)
    (hseek : (files filepath).seekErr = none) (hread : (files filepath).readErr = none) :
    readContent files filepath offset =
      (((files filepath).data.drop offset.toNat, none),
        [Event.opened filepath, Event.statted, Event.seeked offset, Event.readAll,
         Event.closed]) := by
  have hc : checkFileSize (files filepath) offset = none := by
    unfold checkFileSize fileStat
    rw [hstat]
    simp only
    rw [if_neg (by omega)]
  have hs : fileSeek (files filepath) offset = none := by
    unfold fileSeek
    rw [if_neg (by omega), hseek]
    rfl
  unfold readContent osOpen ioReadAll
  simp [hopen, hc, hs, hread]

/-- When the file opens and passes the size check but `Seek` fails,
`readContent` returns the error of `Seek` without reading. -/
theorem readContent_of_seek_error (files : String → FileState) (filepath : String)
    (offset : Int) (e : GoError) (hopen : (files filepath).openErr = none)
    (hcheck : checkFileSize (files filepath) offset = none)
    (hseek : fileSeek (files filepath) offset = some e) :
    readContent files filepath offset =
      (([], some e),
        [Event.opened filepath, Event.statted, Event.seeked offset, Event.closed]) := by
  unfold readContent osOpen
  simp [hopen, hcheck, hseek]

/-- What a successful `UploadResult` tells: the read succeeded at a position
that is not negative, and the result is the `int64` sum of the offset and the
number of bytes read. -/
theorem UploadResult_ok_inv {files : String → FileState} {client : Client} {issue : Int}
    {filepath : String} {offset : Int} {flag : Bool} {next : Int} {evs : List Event}
    (h : UploadResult files client issue filepath offset flag = ((next, none), evs)) :
    ∃ raw evs0, readContent files filepath offset = ((raw, none), evs0) ∧
      raw = (files filepath).data.drop offset.toNat ∧ 0 ≤ offset ∧
      next = wrapInt64 (offset + (raw.length : Int)) := by
  rcases hr : readContent files filepath offset with ⟨⟨raw, err⟩, evs0⟩
  cases err with
  | some e =>
    rw [UploadResult_of_read_error client issue flag hr] at h
    simp at h
  | none =>
    obtain ⟨hpos, hraw, -, -⟩ := readContent_ok hr
    rw [UploadResult_of_read client issue flag hr] at h
    simp only at h
    split at h
    · simp at h
    · simp only [Prod.mk.injEq, and_true] at h
      exact ⟨raw, evs0, rfl, hraw, hpos, h.1.symm⟩

/-! ## C1 to C4: the contract of `UploadResult` and of the size check -/

/-- C1: when `UploadResult` succeeds (the read succeeds and `PostComment` returns
no error), the offset it returns is the input offset plus the number of raw bytes
that `readContent` returned, which are the bytes of the file from the offset on,
before any sanitisation; hence the result is at least the input offset, with
equality exactly when no byte was read. -/
theorem UploadResult_next_offset (files : String → FileState) (client : Client)
    (issue : Int) (filepath : String) (offset : Int) (flag : Bool) (next : Int)
    (evs : List Event) (hoff : IsInt64 offset)
    (hlen : ((files filepath).data.length : Int) < 9223372036854775808)
    (h : UploadResult files client issue filepath offset flag = ((next, none), evs)) :
    ∃ raw evs0, readContent files filepath offset = ((raw, none), evs0) ∧
      raw = (files filepath).data.drop offset.toNat ∧
      next = offset + (raw.length : Int) ∧ offset ≤ next ∧
      (next = offset ↔ raw.length = 0) := by
  rcases hr : readContent files filepath offset with ⟨⟨raw, err⟩, evs0⟩
  cases err with
  | some e =>
    rw [UploadResult_of_read_error client issue flag hr] at h
    simp at h
  | none =>
    obtain ⟨hpos, hraw, -, -⟩ := readContent_ok hr
    rw [UploadResult_of_read client issue flag hr] at h
    simp only at h
    split at h
    · simp at h
    · simp only [Prod.mk.injEq, and_true] at h
      have hrl : raw.length = (files filepath).data.length - offset.toNat := by
        rw [hraw, List.length_drop]
      have hwrap : wrapInt64 (offset + (raw.length : Int)) = offset + (raw.length : Int) := by
        apply wrapInt64_of_isInt64
        unfold IsInt64 at hoff ⊢
        omega
      rw [hwrap] at h
      refine ⟨raw, evs0, rfl, hraw, h.1.symm, by omega, by omega⟩

theorem UploadResult_next_offset_witness :
    ∃ raw evs0, readContent (plainFiles [0x61, 0x0D, 0x0A, 0x08, 0x62]) "out.log" 2
        = ((raw, none), evs0) ∧
      raw = (plainFiles [0x61, 0x0D, 0x0A, 0x08, 0x62] "out.log").data.drop (2 : Int).toNat ∧
      (5 : Int) = 2 + (raw.length : Int) ∧ (2 : Int) ≤ 5 ∧ ((5 : Int) = 2 ↔ raw.length = 0) :=
  UploadResult_next_offset (plainFiles [0x61, 0x0D, 0x0A, 0x08, 0x62]) okClient 7 "out.log"
    2 true 5 _ (by decide) (by decide) (by rfl)

/-- C2: when `readContent` succeeds with raw content `r`, `UploadResult` calls
`PostComment` exactly once, on the given issue, with the body
`formatAsCodeBlock (convertNewline s)`, where `s` is
`removeBackspace (removeANSIEscapeSequences r)` when the flag is set and `r`
itself when it is not. -/
theorem UploadResult_posts_once (files : String → FileState) (client : Client)
    (issue : Int) (filepath : String) (offset : Int) (flag : Bool) (r : Str)
    (evs0 : List Event) (hread : readContent files filepath offset = ((r, none), evs0)) :
    posts (UploadResult files client issue filepath offset flag).2 =
      [(issue, formatAsCodeBlock (convertNewline
        (if flag = true then removeBackspace (removeANSIEscapeSequences r) else r)))] :=
  posts_UploadResult_of_read client issue flag hread

theorem UploadResult_posts_once_witness :
    posts (UploadResult (plainFiles [0x61, 0x0D, 0x0A, 0x08, 0x62]) failingClient 7
        "out.log" 0 false).2 =
      [(7, formatAsCodeBlock (convertNewline
        (if false = true then
          removeBackspace (removeANSIEscapeSequences [0x61, 0x0D, 0x0A, 0x08, 0x62])
         else [0x61, 0x0D, 0x0A, 0x08, 0x62])))] :=
  UploadResult_posts_once (plainFiles [0x61, 0x0D, 0x0A, 0x08, 0x62]) failingClient 7
    "out.log" 0 false [0x61, 0x0D, 0x0A, 0x08, 0x62] _ (by rfl)

/-- C3: whenever `UploadResult` returns an error, the offset it returns is 0. If
`readContent` fails, the result is 0 with that error, the events are those of
`readContent` alone and nothing is posted; if `PostComment` fails, the result is
0 with that error. A non-zero offset comes only with a nil error. -/
theorem UploadResult_error_offset_zero (files : String → FileState) (client : Client)
    (issue : Int) (filepath : String) (offset : Int) (flag : Bool) :
    (∀ e, (UploadResult files client issue filepath offset flag).1.2 = some e →
      (UploadResult files client issue filepath offset flag).1.1 = 0) ∧
    (∀ raw e evs0, readContent files filepath offset = ((raw, some e), evs0) →
      UploadResult files client issue filepath offset flag = ((0, some e), evs0) ∧
      posts (UploadResult files client issue filepath offset flag).2 = []) ∧
    (∀ raw evs0 e, readContent files filepath offset = ((raw, none), evs0) →
      client.PostComment issue (formatAsCodeBlock (convertNewline
        (if flag = true then removeBackspace (removeANSIEscapeSequences raw) else raw)))
        = some e →
      (UploadResult files client issue filepath offset flag).1 = (0, some e)) ∧
    ((UploadResult files client issue filepath offset flag).1.1 ≠ 0 →
      (UploadResult files client issue filepath offset flag).1.2 = none) := by
  have hzero : ∀ e, (UploadResult files client issue filepath offset flag).1.2 = some e →
      (UploadResult files client issue filepath offset flag).1.1 = 0 := by
    intro e he
    rcases hr : readContent files filepath offset with ⟨⟨raw, err⟩, evs0⟩
    cases err with
    | some e0 => rw [UploadResult_of_read_error client issue flag hr]
    | none =>
      rw [UploadResult_of_read client issue flag hr] at he ⊢
      simp only at he ⊢
      split
      · rfl
      · rename_i hpost
        rw [hpost] at he
        simp at he
  refine ⟨hzero, ?_, ?_, ?_⟩
  · intro raw e evs0 hr
    have hp := posts_readContent files filepath offset
    rw [hr] at hp
    rw [UploadResult_of_read_error client issue flag hr]
    exact ⟨rfl, hp⟩
  · intro raw evs0 e hr hpost
    rw [UploadResult_of_read client issue flag hr]
    simp only
    rw [hpost]
  · intro hne
    cases hres : (UploadResult files client issue filepath offset flag).1.2 with
    | none => rfl
    | some e => exact absurd (hzero e hres) hne

theorem UploadResult_error_offset_zero_witness :
    (UploadResult (plainFiles [0x61, 0x62]) failingClient 7 "out.log" 0 true).1
      = (0, some (GoError.post 1)) :=
  (UploadResult_error_offset_zero (plainFiles [0x61, 0x62]) failingClient 7 "out.log" 0
    true).2.2.1 [0x61, 0x62] _ (GoError.post 1) (by rfl) (by rfl)

/-- C4, as stated for every offset, fails: for the offset `-2^63` and a file of 2
bytes, `size - offset` is above 65000, but the `int64` subtraction wraps to a
negative value, `checkFileSize` returns no error, and `readContent` goes on to
the seek (which refuses the negative position). -/
theorem checkFileSize_wraps_at_min_offset :
    IsInt64 (plainFile [0x61, 0x62]).size ∧ IsInt64 (-9223372036854775808) ∧
    (plainFile [0x61, 0x62]).size - (-9223372036854775808) > 65000 ∧
    checkFileSize (plainFile [0x61, 0x62]) (-9223372036854775808) = none ∧
    readContent (plainFiles [0x61, 0x62]) "out.log" (-9223372036854775808) =
      (([], some (GoError.os 22)),
        [Event.opened "out.log", Event.statted, Event.seeked (-9223372036854775808),
         Event.closed]) := by
  refine ⟨by decide, by decide, by decide, by rfl, by rfl⟩

/-- C4, amended: for a file that opens and whose size `Stat` reports, and every
offset for which `size - offset` is representable as an `int64` (the
subtraction does not wrap; this holds for every non-negative size and offset,
and for negative offsets down to `size - 2^63 + 1`), `checkFileSize` returns the
"file is too large" error if and only if `size - offset > 65000`, and
`readContent` then returns that error after the open and the stat only, without
seeking or reading. From offset 0, a size of 65001 is rejected, and a file of
exactly 65000 bytes is accepted and read in full. -/
theorem checkFileSize_ceiling (files : String → FileState) (filepath : String)
    (offset : Int) (hopen : (files filepath).openErr = none)
    (hstat : (files filepath).statErr = none)
    (hfit : IsInt64 ((files filepath).size - offset)) :
    (checkFileSize (files filepath) offset = some GoError.fileTooLarge ↔
      (files filepath).size - offset > 65000) ∧
    ((files filepath).size - offset > 65000 →
      readContent files filepath offset =
        (([], some GoError.fileTooLarge),
          [Event.opened filepath, Event.statted, Event.closed])) ∧
    (offset = 0 → (files filepath).size = 65001 →
      readContent files filepath offset =
        (([], some GoError.fileTooLarge),
          [Event.opened filepath, Event.statted, Event.closed])) ∧
    (offset = 0 → (files filepath).size = 65000 →
      (files filepath).data.length = 65000 →
      (files filepath).seekErr = none → (files filepath).readErr = none →
      readContent files filepath offset =
        (((files filepath).data, none),
          [Event.opened filepath, Event.statted, Event.seeked 0, Event.readAll,
           Event.closed])) := by
  have hwrap : wrapInt64 ((files filepath).size - offset) = (files filepath).size - offset :=
    wrapInt64_of_isInt64 hfit
  have hcheck : checkFileSize (files filepath) offset =
      if (files filepath).size - offset > 65000 then some GoError.fileTooLarge else none := by
    unfold checkFileSize fileStat
    rw [hstat]
    simp only [hwrap]
  have hiff : checkFileSize (files filepath) offset = some GoError.fileTooLarge ↔
      (files filepath).size - offset > 65000 := by
    rw [hcheck]
    split <;> simp_all
  have hrej : (files filepath).size - offset > 65000 →
      readContent files filepath offset =
        (([], some GoError.fileTooLarge),
          [Event.opened filepath, Event.statted, Event.closed]) := by
    intro hbig
    unfold readContent osOpen
    simp only [hopen, Option.map_none', hiff.mpr hbig]
  refine ⟨hiff, hrej, ?_, ?_⟩
  · intro h0 h1
    apply hrej
    omega
  · intro h0 h1 hlen hseek hread
    subst h0
    have hpass : checkFileSize (files filepath) 0 = none := by
      rw [hcheck, if_neg (by omega)]
    unfold readContent osOpen fileSeek ioReadAll
    simp [hopen, hpass, hseek, hread]

theorem checkFileSize_ceiling_witness :
    readContent (sizedFiles 65001) "out.log" 0 =
      (([], some GoError.fileTooLarge),
        [Event.opened "out.log", Event.statted, Event.closed]) ∧
    readContent (sizedFiles 65000) "out.log" 0 =
      (((sizedFiles 65000 "out.log").data, none),
        [Event.opened "out.log", Event.statted, Event.seeked 0, Event.readAll,
         Event.closed]) ∧
    readContent (sizedFiles 65000) "out.log" (-1) =
      (([], some GoError.fileTooLarge),
        [Event.opened "out.log", Event.statted, Event.closed]) ∧
    (checkFileSize (sizedFiles 65000 "out.log") 0 = some GoError.fileTooLarge ↔
      (sizedFiles 65000 "out.log").size - 0 > 65000) :=
  ⟨(checkFileSize_ceiling (sizedFiles 65001) "out.log" 0 rfl rfl (by decide)).2.2.1 rfl rfl,
   (checkFileSize_ceiling (sizedFiles 65000) "out.log" 0 rfl rfl (by decide)).2.2.2 rfl rfl
     (List.length_replicate 65000 (0x61 : Byte)) rfl rfl,
   (checkFileSize_ceiling (sizedFiles 65000) "out.log" (-1) rfl rfl (by decide)).2.1
     (by decide),
   (checkFileSize_ceiling (sizedFiles 65000) "out.log" 0 rfl rfl (by decide)).1⟩

/-! ## C5: the size of the comment body -/

/-- C5: for a successful `UploadResult` on a file that does not change during the
call (the size that `Stat` reports is the length of the data that is read), with
either flag value, the one posted comment body has at most 65000 + 9 = 65009
bytes, below the limit of 65536: the raw content has at most 65000 bytes, the
sanitised text is no longer than the raw content, and the fence adds 9 bytes. -/
theorem UploadResult_body_bound (files : String → FileState) (client : Client)
    (issue : Int) (filepath : String) (offset : Int) (flag : Bool) (next : Int)
    (evs : List Event) (hoff : IsInt64 offset)
    (hsame : (files filepath).size = ((files filepath).data.length : Int))
    (hsize : IsInt64 (files filepath).size)
    (h : UploadResult files client issue filepath offset flag = ((next, none), evs)) :
    ∃ raw evs0 text body, readContent files filepath offset = ((raw, none), evs0) ∧
      raw.length ≤ 65000 ∧
      text = convertNewline
        (if flag = true then removeBackspace (removeANSIEscapeSequences raw) else raw) ∧
      text.length ≤ raw.length ∧
      body = formatAsCodeBlock text ∧ body.length = text.length + 9 ∧
      posts evs = [(issue, body)] ∧ body.length ≤ 65009 ∧ body.length < 65536 := by
  rcases hr : readContent files filepath offset with ⟨⟨raw, err⟩, evs0⟩
  cases err with
  | some e =>
    rw [UploadResult_of_read_error client issue flag hr] at h
    simp at h
  | none =>
    obtain ⟨hpos, hraw, hcheck, -⟩ := readContent_ok hr
    have hposts := posts_UploadResult_of_read client issue flag hr
    rw [h] at hposts
    have hle : (files filepath).size - offset ≤ 65000 := by
      unfold checkFileSize fileStat at hcheck
      split at hcheck
      · simp at hcheck
      · rename_i size hstat
        split at hstat
        · simp at hstat
        · simp only [Prod.mk.injEq, and_true] at hstat
          subst hstat
          split at hcheck
          · simp at hcheck
          · rename_i hnot
            have hw : wrapInt64 ((files filepath).size - offset) =
                (files filepath).size - offset := by
              apply wrapInt64_of_isInt64
              unfold IsInt64 at hoff hsize ⊢
              omega
            rw [hw] at hnot
            omega
    have hrl : raw.length ≤ 65000 := by
      rw [hraw, List.length_drop]
      omega
    have htext : (convertNewline
        (if flag = true then removeBackspace (removeANSIEscapeSequences raw) else raw)).length
        ≤ raw.length := by
      refine Nat.le_trans (convertNewline_length_le _) ?_
      split
      · exact Nat.le_trans (removeBackspace_length_le _) (removeANSI_length_le raw)
      · exact Nat.le_refl _
    refine ⟨raw, evs0, _, _, rfl, hrl, rfl, htext, rfl, formatAsCodeBlock_length _, hposts,
      ?_, ?_⟩
    · rw [formatAsCodeBlock_length]; omega
    · rw [formatAsCodeBlock_length]; omega

theorem UploadResult_body_bound_witness :
    ∃ raw evs0 text body,
      readContent (plainFiles [0x61, 0x0D, 0x0A, 0x08, 0x62]) "out.log" 0
        = ((raw, none), evs0) ∧
      raw.length ≤ 65000 ∧
      text = convertNewline
        (if true = true then removeBackspace (removeANSIEscapeSequences raw) else raw) ∧
      text.length ≤ raw.length ∧
      body = formatAsCodeBlock text ∧ body.length = text.length + 9 ∧
      posts [Event.opened "out.log", Event.statted, Event.seeked 0, Event.readAll,
        Event.closed,
        Event.posted 7 [0x60, 0x60, 0x60, 0x0A, 0x61, 0x0A, 0x62, 0x0A, 0x60, 0x60, 0x60, 0x0A]]
        = [(7, body)] ∧
      body.length ≤ 65009 ∧ body.length < 65536 :=
  UploadResult_body_bound (plainFiles [0x61, 0x0D, 0x0A, 0x08, 0x62]) okClient 7 "out.log"
    0 true 5 _ (by decide) (by rfl) (by decide) (by rfl)

/-! ## C6 to C8: `removeANSIEscapeSequences` -/

/-- C6, as stated, fails: the output of `removeANSIEscapeSequences` can contain a
CSI sequence. On the input ESC ESC `[0m` `[0m` the scan removes the one match
ESC `[0m` that starts at the second byte, and the bytes left and right of it
join into ESC `[0m`. -/
theorem removeANSI_output_may_contain_csi :
    removeANSIEscapeSequences [0x1B, 0x1B, 0x5B, 0x30, 0x6D, 0x5B, 0x30, 0x6D]
        = [0x1B, 0x5B, 0x30, 0x6D] ∧
      ContainsCSI
        (removeANSIEscapeSequences [0x1B, 0x1B, 0x5B, 0x30, 0x6D, 0x5B, 0x30, 0x6D]) := by
  have h : removeANSIEscapeSequences [0x1B, 0x1B, 0x5B, 0x30, 0x6D, 0x5B, 0x30, 0x6D]
      = [0x1B, 0x5B, 0x30, 0x6D] := by decide
  refine ⟨h, ?_⟩
  rw [h]
  refine ⟨[], [0x1B, 0x5B, 0x30, 0x6D], [], rfl, [0x30], [], 0x6D, rfl, ?_, by simp,
    by decide⟩
  intro p hp
  rw [List.mem_singleton] at hp
  subst hp
  decide

/-- C6, amended: `removeANSIEscapeSequences` strips, in one pass from left to
right, every CSI substring of the input that the scan meets. The input splits as
`t0 c1 t1 ... cn tn`, where each `ci` is a CSI sequence and no `ti` contains a
substring that is a CSI sequence, and the output is `t0 t1 ... tn`. (The output
is not scanned again.) -/
theorem removeANSI_strips_scanned_matches (input : Str) :
    ∃ (t0 : Str) (segs : List (Str × Str)),
      input = t0 ++ joinWithEscapes segs ∧
      removeANSIEscapeSequences input = t0 ++ joinTexts segs ∧
      ¬ ContainsCSI t0 ∧ ∀ p ∈ segs, IsCSI p.1 ∧ ¬ ContainsCSI p.2 := by
  suffices H : ∀ (n : Nat) (input : Str), input.length = n →
      ∃ (t0 : Str) (segs : List (Str × Str)),
        input = t0 ++ joinWithEscapes segs ∧
        removeANSIEscapeSequences input = t0 ++ joinTexts segs ∧
        ¬ ContainsCSI t0 ∧ ∀ p ∈ segs, IsCSI p.1 ∧ ¬ ContainsCSI p.2 from H _ input rfl
  intro n
  induction n using Nat.strong_induction_on with
  | _ n ih =>
    intro input hn
    cases input with
    | nil =>
      refine ⟨[], [], rfl, rfl, ?_, by simp⟩
      rintro ⟨a, c, r, h, hc⟩
      have := hc.length_pos
      have hl := congrArg List.length h
      simp at hl
      omega
    | cons b t =>
      cases hm : matchAt ansiEscapeRegex (b :: t) with
      | none =>
        obtain ⟨t0, segs, ht, hout, hno, hsegs⟩ := ih t.length (by simp at hn; omega) t rfl
        refine ⟨b :: t0, segs, by rw [ht]; rfl, ?_, ?_, hsegs⟩
        · rw [removeANSI_cons_of_none b t hm, hout]; rfl
        · rintro ⟨a, c, r, h, hc⟩
          cases a with
          | nil =>
            have hs : b :: t = c ++ (r ++ joinWithEscapes segs) := by
              rw [ht, ← List.cons_append, h]; simp
            rw [hs, matchAt_ansi_complete c _ hc] at hm
            simp at hm
          | cons x a =>
            simp only [List.cons_append, List.cons.injEq] at h
            exact hno ⟨a, c, r, h.2, hc⟩
      | some m =>
        obtain ⟨c, rest, hs, -, hc⟩ := matchAt_ansi_sound _ m hm
        have hlen : rest.length < n := by
          have := hc.length_pos
          have hl := congrArg List.length hs
          simp at hl
          simp at hn
          omega
        obtain ⟨t0, segs, ht, hout, hno, hsegs⟩ := ih rest.length hlen rest rfl
        refine ⟨[], (c, t0) :: segs, ?_, ?_, ?_, ?_⟩
        · rw [hs, ht]; simp [joinWithEscapes]
        · rw [hs, removeANSI_csi_append c rest hc, hout]; simp [joinTexts]
        · rintro ⟨a, c', r, h, hc'⟩
          have := hc'.length_pos
          have hl := congrArg List.length h
          simp at hl
          omega
        · intro p hp
          rcases List.mem_cons.mp hp with rfl | hp
          · exact ⟨hc, hno⟩
          · exact hsegs p hp

/-- C7: for texts `t0 .. tn` without an ESC byte and CSI sequences `c1 .. cn`,
`removeANSIEscapeSequences (t0 c1 t1 ... cn tn) = t0 t1 ... tn`: each escape
sequence is removed exactly, and no byte of the surrounding text is consumed. -/
theorem removeANSI_strips_exactly (t0 : Str) (segs : List (Str × Str))
    (h0 : (0x1B : Byte) ∉ t0) (hsegs : ∀ p ∈ segs, IsCSI p.1 ∧ (0x1B : Byte) ∉ p.2) :
    removeANSIEscapeSequences (t0 ++ joinWithEscapes segs) = t0 ++ joinTexts segs :=
  removeANSI_join t0 segs h0 hsegs

theorem removeANSI_strips_exactly_witness :
    removeANSIEscapeSequences
        [0x1B, 0x5B, 0x33, 0x31, 0x6D, 0x72, 0x65, 0x64, 0x1B, 0x5B, 0x30, 0x6D,
         0x20, 0x74, 0x65, 0x78, 0x74]
      = [0x72, 0x65, 0x64, 0x20, 0x74, 0x65, 0x78, 0x74] :=
  removeANSI_strips_exactly []
    [([0x1B, 0x5B, 0x33, 0x31, 0x6D], [0x72, 0x65, 0x64]),
     ([0x1B, 0x5B, 0x30, 0x6D], [0x20, 0x74, 0x65, 0x78, 0x74])]
    (by simp)
    (by
      intro p hp
      simp only [List.mem_cons, List.mem_singleton, List.not_mem_nil, or_false] at hp
      rcases hp with rfl | rfl
      · refine ⟨⟨[0x33, 0x31], [], 0x6D, rfl, ?_, by simp, by decide⟩, by decide⟩
        intro q hq
        simp only [List.mem_cons, List.mem_singleton, List.not_mem_nil, or_false] at hq
        rcases hq with rfl | rfl <;> decide
      · refine ⟨⟨[0x30], [], 0x6D, rfl, ?_, by simp, by decide⟩, by decide⟩
        intro q hq
        rw [List.mem_singleton] at hq
        subst hq
        decide)

/-- C8: an input that contains no substring matching the CSI grammar is returned
unchanged; this covers ESC bytes not followed by `[` and ESC `[` sequences that
lack a final byte. -/
theorem removeANSI_no_csi_unchanged (s : Str) (h : ¬ ContainsCSI s) :
    removeANSIEscapeSequences s = s :=
  removeANSI_unchanged s h

theorem removeANSI_no_csi_unchanged_witness :
    removeANSIEscapeSequences [0x1B, 0x61, 0x1B, 0x5B, 0x33, 0x31, 0x0A, 0x1B]
      = [0x1B, 0x61, 0x1B, 0x5B, 0x33, 0x31, 0x0A, 0x1B] :=
  removeANSI_no_csi_unchanged [0x1B, 0x61, 0x1B, 0x5B, 0x33, 0x31, 0x0A, 0x1B]
    (not_containsCSI_of_tails _ (by decide))

/-! ## C9 and C10: `removeBackspace` and `convertNewline` -/

/-- C9: `removeBackspace` returns its input with exactly the bytes equal to `0x08`
deleted and every other byte kept, in order; the output holds no `0x08` byte; and
`"abc\bdef"` becomes `"abcdef"`. -/
theorem removeBackspace_deletes_backspaces (s : Str) :
    removeBackspace s = s.filter (fun b => b ≠ 0x08) ∧
    (0x08 : Byte) ∉ removeBackspace s ∧
    removeBackspace [0x61, 0x62, 0x63, 0x08, 0x64, 0x65, 0x66]
      = [0x61, 0x62, 0x63, 0x64, 0x65, 0x66] := by
  refine ⟨removeBackspace_eq_filter s, ?_, by decide⟩
  rw [removeBackspace_eq_filter]
  intro h
  have := (List.mem_filter.mp h).2
  simp at this

/-- C10: `convertNewline` scans from left to right: a `"\r\n"` pair becomes one
`"\n"`, a `"\r"` not followed by `"\n"` becomes one `"\n"`, and every other byte,
`"\n"` included, is kept; the output holds no `"\r"` byte; and `"a\r\nb\rc\n"`
becomes `"a\nb\nc\n"`. -/
theorem convertNewline_scan (s : Str) :
    convertNewline [] = [] ∧
    (∀ t : Str, convertNewline (0x0D :: 0x0A :: t) = 0x0A :: convertNewline t) ∧
    (∀ t : Str, t.head? ≠ some 0x0A → convertNewline (0x0D :: t) = 0x0A :: convertNewline t) ∧
    (∀ (b : Byte) (t : Str), b ≠ 0x0D → convertNewline (b :: t) = b :: convertNewline t) ∧
    (0x0D : Byte) ∉ convertNewline s ∧
    convertNewline [0x61, 0x0D, 0x0A, 0x62, 0x0D, 0x63, 0x0A]
      = [0x61, 0x0A, 0x62, 0x0A, 0x63, 0x0A] :=
  ⟨convertNewline_nil, convertNewline_crlf, convertNewline_cr, convertNewline_other,
    convertNewline_no_cr s, by decide⟩

/-! ## C11 and C12: the fence, and resuming from the returned offset -/

/-- C11: for every content `c`, triple backquotes inside it included,
`formatAsCodeBlock c` is the 4 bytes of the opening fence, then `c` byte for byte,
then the 5 bytes of the closing fence; its length is `len(c) + 9`; and
`formatAsCodeBlock "hello"` is the fenced `hello`. -/
theorem formatAsCodeBlock_exact (c : Str) :
    formatAsCodeBlock c = [0x60, 0x60, 0x60, 0x0A] ++ c ++ [0x0A, 0x60, 0x60, 0x60, 0x0A] ∧
    (formatAsCodeBlock c).take 4 = [0x60, 0x60, 0x60, 0x0A] ∧
    ((formatAsCodeBlock c).drop 4).take c.length = c ∧
    (formatAsCodeBlock c).drop (4 + c.length) = [0x0A, 0x60, 0x60, 0x60, 0x0A] ∧
    (formatAsCodeBlock c).length = c.length + 9 ∧
    formatAsCodeBlock [0x68, 0x65, 0x6C, 0x6C, 0x6F]
      = [0x60, 0x60, 0x60, 0x0A, 0x68, 0x65, 0x6C, 0x6C, 0x6F, 0x0A, 0x60, 0x60, 0x60, 0x0A] ∧
    formatAsCodeBlock [0x60, 0x60, 0x60]
      = [0x60, 0x60, 0x60, 0x0A, 0x60, 0x60, 0x60, 0x0A, 0x60, 0x60, 0x60, 0x0A] := by
  refine ⟨rfl, rfl, ?_, ?_, formatAsCodeBlock_length c, by decide, by decide⟩
  · show (c ++ [0x0A, 0x60, 0x60, 0x60, 0x0A]).take c.length = c
    simp
  · have hlen : 4 + c.length = ([0x60, 0x60, 0x60, 0x0A] ++ c : Str).length := by
      simp only [List.length_append, List.length_cons, List.length_nil]
    rw [formatAsCodeBlock, hlen, List.drop_left]

/-- C12: for contents `A` and `B` of at most 65000 bytes each, if `UploadResult`
from offset 0 on a file holding `A` succeeds and returns `k`, then `k = len(A)`
and the raw content read is `A`; and if a following `UploadResult` from offset
`k` on the file holding `A` followed by `B` succeeds, it reads exactly `B` as raw
content and returns `len(A) + len(B)`. The two raw contents concatenate to the
file: no byte is skipped or read twice. -/
theorem UploadResult_resume (files1 files2 : String → FileState) (client1 client2 : Client)
    (issue : Int) (filepath : String) (flag1 flag2 : Bool) (A B : Str) (k next : Int)
    (evs1 evs2 : List Event) (hA : A.length ≤ 65000) (hB : B.length ≤ 65000)
    (hfile1 : (files1 filepath).data = A) (hfile2 : (files2 filepath).data = A ++ B)
    (h1 : UploadResult files1 client1 issue filepath 0 flag1 = ((k, none), evs1))
    (h2 : UploadResult files2 client2 issue filepath k flag2 = ((next, none), evs2)) :
    k = (A.length : Int) ∧
    (∃ evs0, readContent files1 filepath 0 = ((A, none), evs0)) ∧
    (∃ evs0, readContent files2 filepath k = ((B, none), evs0)) ∧
    next = (A.length : Int) + (B.length : Int) ∧
    A ++ B = (files2 filepath).data := by
  obtain ⟨raw1, e1, hr1, hraw1, -, hk⟩ := UploadResult_ok_inv h1
  rw [hfile1] at hraw1
  simp only [Int.toNat_zero, List.drop_zero] at hraw1
  subst hraw1
  have hk' : k = (raw1.length : Int) := by
    rw [hk, Int.zero_add]
    apply wrapInt64_of_isInt64
    unfold IsInt64
    omega
  obtain ⟨raw2, e2, hr2, hraw2, -, hn⟩ := UploadResult_ok_inv h2
  rw [hfile2, hk'] at hraw2
  simp only [Int.toNat_ofNat, List.drop_left] at hraw2
  subst hraw2
  have hn' : next = (raw1.length : Int) + (raw2.length : Int) := by
    rw [hn, hk']
    apply wrapInt64_of_isInt64
    unfold IsInt64
    omega
  exact ⟨hk', ⟨e1, hr1⟩, ⟨e2, hr2⟩, hn', hfile2.symm⟩

theorem UploadResult_resume_witness :
    (3 : Int) = (([0x61, 0x0D, 0x0A] : Str).length : Int) ∧
    (∃ evs0, readContent (plainFiles [0x61, 0x0D, 0x0A]) "out.log" 0
      = (([0x61, 0x0D, 0x0A], none), evs0)) ∧
    (∃ evs0, readContent (plainFiles ([0x61, 0x0D, 0x0A] ++ [0x08, 0x62])) "out.log" 3
      = (([0x08, 0x62], none), evs0)) ∧
    (5 : Int) = (([0x61, 0x0D, 0x0A] : Str).length : Int) + (([0x08, 0x62] : Str).length : Int) ∧
    [0x61, 0x0D, 0x0A] ++ [0x08, 0x62]
      = (plainFiles ([0x61, 0x0D, 0x0A] ++ [0x08, 0x62]) "out.log").data :=
  UploadResult_resume (plainFiles [0x61, 0x0D, 0x0A])
    (plainFiles ([0x61, 0x0D, 0x0A] ++ [0x08, 0x62])) okClient okClient 7 "out.log" true
    true [0x61, 0x0D, 0x0A] [0x08, 0x62] 3 5 _ _ (by decide) (by decide) rfl rfl (by rfl)
    (by rfl)

/-! ## C13 to C17: order, seek, lengths and idempotence -/

/-- C13: sanitisation does not touch multi-byte content: the bytes `0x80` and
above of `convertNewline (removeBackspace (removeANSIEscapeSequences input))`
(flag set) and of `convertNewline input` (flag not set) are, in order, those of
the input; each of the three steps alone keeps them too. -/
theorem sanitize_keeps_high_bytes (input : Str) :
    highBytes (convertNewline (removeBackspace (removeANSIEscapeSequences input)))
      = highBytes input ∧
    highBytes (convertNewline input) = highBytes input ∧
    highBytes (removeANSIEscapeSequences input) = highBytes input ∧
    highBytes (removeBackspace input) = highBytes input := by
  refine ⟨?_, highBytes_convertNewline input, highBytes_removeANSI input,
    highBytes_removeBackspace input⟩
  rw [highBytes_convertNewline, highBytes_removeBackspace, highBytes_removeANSI]

/-- C14: `UploadResult` strips escape sequences before backspaces (the body it
posts with the flag set is built from
`removeBackspace (removeANSIEscapeSequences raw)`), and the two steps do not
commute: on ESC, backspace, `[0m` the order of the program keeps ESC `[0m`, the
bytes around the backspace, while the other order removes everything. -/
theorem strip_order_matters :
    (∀ (files : String → FileState) (client : Client) (issue : Int) (filepath : String)
        (offset : Int) (raw : Str) (evs0 : List Event),
      readContent files filepath offset = ((raw, none), evs0) →
      posts (UploadResult files client issue filepath offset true).2 =
        [(issue, formatAsCodeBlock (convertNewline
          (removeBackspace (removeANSIEscapeSequences raw))))]) ∧
    (∃ x : Str, removeBackspace (removeANSIEscapeSequences x)
      ≠ removeANSIEscapeSequences (removeBackspace x)) ∧
    removeBackspace (removeANSIEscapeSequences [0x1B, 0x08, 0x5B, 0x30, 0x6D])
      = [0x1B, 0x5B, 0x30, 0x6D] ∧
    removeANSIEscapeSequences (removeBackspace [0x1B, 0x08, 0x5B, 0x30, 0x6D]) = [] := by
  refine ⟨?_, ⟨[0x1B, 0x08, 0x5B, 0x30, 0x6D], by decide⟩, by decide, by decide⟩
  intro files client issue filepath offset raw evs0 hread
  have := posts_UploadResult_of_read client issue true hread
  simpa using this

theorem strip_order_matters_witness :
    posts (UploadResult (plainFiles [0x1B, 0x08, 0x5B, 0x30, 0x6D]) okClient 7 "out.log" 0
        true).2 =
      [(7, formatAsCodeBlock (convertNewline
        (removeBackspace (removeANSIEscapeSequences [0x1B, 0x08, 0x5B, 0x30, 0x6D]))))] :=
  strip_order_matters.1 (plainFiles [0x1B, 0x08, 0x5B, 0x30, 0x6D]) okClient 7 "out.log" 0
    [0x1B, 0x08, 0x5B, 0x30, 0x6D] _ (by rfl)

/-- C15, as stated, fails: on a file of 2 bytes, `readContent` from offset 5
passes the size check, seeks, reads, and returns the empty content with a nil
error; `UploadResult` posts the empty code block and returns 5. -/
theorem readContent_past_end_succeeds :
    readContent (plainFiles [0x61, 0x62]) "out.log" 5 =
      (([], none),
        [Event.opened "out.log", Event.statted, Event.seeked 5, Event.readAll,
         Event.closed]) ∧
    UploadResult (plainFiles [0x61, 0x62]) okClient 7 "out.log" 5 true =
      ((5, none),
        [Event.opened "out.log", Event.statted, Event.seeked 5, Event.readAll,
         Event.closed,
         Event.posted 7 [0x60, 0x60, 0x60, 0x0A, 0x0A, 0x60, 0x60, 0x60, 0x0A]]) := by
  constructor <;> rfl

/-- C15, amended: `readContent` fails at the seek step when `Seek` reports an
error (as it does for a negative offset); it then returns that error without
reading, and `UploadResult` returns 0 with that error and posts nothing. An
offset greater than the size of the file is not such an error: on a file whose
calls succeed and which does not change during the call, the size check passes,
`readContent` returns the empty content with a nil error, and `UploadResult`
posts the empty code block and, when `PostComment` succeeds, returns the offset
unchanged. -/
theorem readContent_seek_step (files : String → FileState) (client : Client) (issue : Int)
    (filepath : String) (offset : Int) (flag : Bool)
    (hopen : (files filepath).openErr = none) :
    (∀ e, checkFileSize (files filepath) offset = none →
      fileSeek (files filepath) offset = some e →
      readContent files filepath offset =
        (([], some e),
          [Event.opened filepath, Event.statted, Event.seeked offset, Event.closed]) ∧
      UploadResult files client issue filepath offset flag =
        ((0, some e),
          [Event.opened filepath, Event.statted, Event.seeked offset, Event.closed]) ∧
      posts (UploadResult files client issue filepath offset flag).2 = []) ∧
    (offset < 0 → fileSeek (files filepath) offset = some (GoError.os 22)) ∧
    ((files filepath).statErr = none → (files filepath).seekErr = none →
      (files filepath).readErr = none →
      (files filepath).size = ((files filepath).data.length : Int) →
      (files filepath).size < offset → IsInt64 offset →
      readContent files filepath offset =
        (([], none),
          [Event.opened filepath, Event.statted, Event.seeked offset, Event.readAll,
           Event.closed]) ∧
      posts (UploadResult files client issue filepath offset flag).2 =
        [(issue, formatAsCodeBlock [])] ∧
      (client.PostComment issue (formatAsCodeBlock []) = none →
        (UploadResult files client issue filepath offset flag).1 = (offset, none))) := by
  refine ⟨?_, ?_, ?_⟩
  · intro e hcheck hseek
    have hr := readContent_of_seek_error files filepath offset e hopen hcheck hseek
    have hu := UploadResult_of_read_error client issue flag hr
    refine ⟨hr, hu, ?_⟩
    rw [hu]
    rfl
  · intro hneg
    unfold fileSeek
    rw [if_pos hneg]
  · intro hstat hseek hread hsame hlt hoff
    have hw : wrapInt64 ((files filepath).size - offset) = (files filepath).size - offset := by
      apply wrapInt64_of_isInt64
      unfold IsInt64 at hoff ⊢
      omega
    have hr := readContent_of_ok files filepath offset hopen hstat (by rw [hw]; omega)
      (by omega) hseek hread
    have hdrop : (files filepath).data.drop offset.toNat = [] := by
      apply List.drop_eq_nil_of_le
      omega
    rw [hdrop] at hr
    have hbody : convertNewline
        (if flag = true then removeBackspace (removeANSIEscapeSequences []) else [])
        = ([] : Str) := by
      cases flag <;> rfl
    have hp := posts_UploadResult_of_read client issue flag hr
    rw [hbody] at hp
    refine ⟨hr, hp, ?_⟩
    intro hpost
    rw [UploadResult_of_read client issue flag hr]
    simp only [hbody, hpost, List.length_nil, Int.ofNat_zero, Int.add_zero, Nat.cast_zero]
    rw [wrapInt64_of_isInt64 hoff]

theorem readContent_seek_step_witness :
    readContent (plainFiles [0x61, 0x62]) "out.log" (-1) =
      (([], some (GoError.os 22)),
        [Event.opened "out.log", Event.statted, Event.seeked (-1), Event.closed]) ∧
    UploadResult (plainFiles [0x61, 0x62]) okClient 7 "out.log" (-1) true =
      ((0, some (GoError.os 22)),
        [Event.opened "out.log", Event.statted, Event.seeked (-1), Event.closed]) ∧
    posts (UploadResult (plainFiles [0x61, 0x62]) okClient 7 "out.log" (-1) true).2 = [] :=
  (readContent_seek_step (plainFiles [0x61, 0x62]) okClient 7 "out.log" (-1) true
    (by rfl)).1 (GoError.os 22) (by rfl) (by rfl)

/-- C16: no sanitising step lengthens the text: each of
`removeANSIEscapeSequences`, `removeBackspace` and `convertNewline` returns a
string at most as long as its input, so for either flag value the sanitised
content is at most as long as the raw content. -/
theorem sanitize_never_longer (x : Str) :
    (removeANSIEscapeSequences x).length ≤ x.length ∧
    (removeBackspace x).length ≤ x.length ∧
    (convertNewline x).length ≤ x.length ∧
    (∀ flag : Bool, (convertNewline
      (if flag = true then removeBackspace (removeANSIEscapeSequences x) else x)).length
        ≤ x.length) := by
  refine ⟨removeANSI_length_le x, removeBackspace_length_le x, convertNewline_length_le x, ?_⟩
  intro flag
  refine Nat.le_trans (convertNewline_length_le _) ?_
  split
  · exact Nat.le_trans (removeBackspace_length_le _) (removeANSI_length_le x)
  · exact Nat.le_refl _

/-- C17: `convertNewline` is idempotent, and it returns unchanged every input
that holds no `"\r"` byte. -/
theorem convertNewline_idempotent (x : Str) :
    convertNewline (convertNewline x) = convertNewline x ∧
    ((0x0D : Byte) ∉ x → convertNewline x = x) :=
  ⟨convertNewline_of_no_cr _ (convertNewline_no_cr x), convertNewline_of_no_cr x⟩

theorem convertNewline_idempotent_witness :
    convertNewline [0x61, 0x0A, 0x62] = [0x61, 0x0A, 0x62] :=
  (convertNewline_idempotent [0x61, 0x0A, 0x62]).2 (by decide)

end Mop
